import Mathlib

/-!
Verification development for `src/myshell.c`, a small line-oriented Unix
shell (tokenizer, pipeline parser, builtin dispatch, pipeline executor,
job table, SIGCHLD reaper).  Every definition below is a shallow
embedding of a function of `myshell.c`, translated clause by clause from
the C source; strings are modelled as `List Char`, the C `NUL`
terminator disappears because the list simply ends.  Definitions whose
doc comment says "spec-side" are, instead, transcriptions of the
specification's own words, used as the right-hand side of refinement
statements.
-/

namespace MyShell

/-- Whitespace test used by `tokenize` (myshell.c lines 91 and 107):
space, tab or newline. -/
def isWS (c : Char) : Bool := c == ' ' || c == '\t' || c == '\n'

/-- Operator-character test used by `tokenize` (myshell.c lines 93 and
112): one of `>`, `<`, `|`, `&`. -/
def isOpChar (c : Char) : Bool := c == '>' || c == '<' || c == '|' || c == '&'

/-- Quote-character test used by `tokenize` (myshell.c lines 108 and
120): single or double quote. -/
def isQuoteChar (c : Char) : Bool := c == '\'' || c == '"'

/-- The word scanner of `tokenize` (myshell.c lines 103-114): starting
at the word's first character, with `inq` the `inquote` flag and `qc`
the `quotechar`, it returns the consumed span and the remaining input.
It stops at an unquoted whitespace or operator character (leaving it in
the remainder) or at the end of input; quote characters toggle the
quoting state and are kept in the span (they are stripped later, line
120).  The C code resets `quotechar` to `0` on a closing quote; the
value is irrelevant while `inquote` is false, here `' '` stands for it. -/
def scanWord : List Char → Bool → Char → List Char × List Char
  | [], _, _ => ([], [])
  | c :: rest, inq, qc =>
    if inq = false ∧ isWS c = true then ([], c :: rest)
    else if inq = false ∧ isQuoteChar c = true then
      let pr := scanWord rest true c
      (c :: pr.1, pr.2)
    else if inq = true ∧ c = qc then
      let pr := scanWord rest false ' '
      (c :: pr.1, pr.2)
    else if inq = false ∧ isOpChar c = true then ([], c :: rest)
    else
      let pr := scanWord rest inq qc
      (c :: pr.1, pr.2)

/-- Quote stripping applied when a word token's text is copied out
(myshell.c lines 116-123): every `'` and `"` of the span is dropped. -/
def stripQuotes (w : List Char) : List Char := w.filter (fun c => !isQuoteChar c)

/-- The token `|`. -/
def pipeW : List Char := ['|']
/-- The token `<`. -/
def ltW : List Char := ['<']
/-- The token `>`. -/
def gtW : List Char := ['>']
/-- The token `>>`. -/
def ggW : List Char := ['>', '>']
/-- The token `&`. -/
def ampW : List Char := ['&']
/-- The five operator tokens of the shell's syntax. -/
def opTokens : List (List Char) := [pipeW, ltW, gtW, ggW, ampW]

/-- The word `cd`. -/
def cdW : List Char := ['c', 'd']
/-- The word `exit`. -/
def exitW : List Char := ['e', 'x', 'i', 't']
/-- The word `jobs`. -/
def jobsW : List Char := ['j', 'o', 'b', 's']

/-- The main loop of `tokenize` (myshell.c lines 85-129).  `n` is the
number of tokens emitted so far and `maxT` the `max_tokens` argument;
the loop runs `while (*p && n < max_tokens-1)`, first skipping
whitespace, then emitting either an operator token (with one character
of lookahead distinguishing `>>` from `>`, lines 93-100) or a
quote-stripped word token (lines 102-124).  The loop consumes at least
one character per iteration, so fuel `l.length + 1` is never
exhausted. -/
def tokenizeGo : Nat → List Char → Nat → Nat → List (List Char)
  | 0, _, _, _ => []
  | fuel+1, l, n, maxT =>
    if l = [] then []
    else if ¬ n + 1 < maxT then []
    else
      match l.dropWhile isWS with
      | [] => []
      | c :: rest =>
        if isOpChar c = true then
          if c = '>' ∧ rest.head? = some '>' then
            ggW :: tokenizeGo fuel (rest.drop 1) (n+1) maxT
          else
            [c] :: tokenizeGo fuel rest (n+1) maxT
        else
          let pr := scanWord (c :: rest) false ' '
          stripQuotes pr.1 :: tokenizeGo fuel pr.2 (n+1) maxT

/-- `tokenize` (myshell.c lines 85-129) without the allocation oracle:
the token sequence produced from line `l` with token bound `maxT`
(`main` passes `MAX_TOKENS = 256`). -/
def tokenize (l : List Char) (maxT : Nat) : List (List Char) :=
  tokenizeGo (l.length + 1) l 0 maxT

/-- Spec-side: the word scanner as §4.1 of the specification describes
words — a word runs until unquoted whitespace; inside a quoted span
whitespace and operator characters lose their special meaning and are
included verbatim.  Identical to `scanWord` except that no operator
character ends the word. -/
def specScan : List Char → Bool → Char → List Char × List Char
  | [], _, _ => ([], [])
  | c :: rest, inq, qc =>
    if inq = false ∧ isWS c = true then ([], c :: rest)
    else if inq = false ∧ isQuoteChar c = true then
      let pr := specScan rest true c
      (c :: pr.1, pr.2)
    else if inq = true ∧ c = qc then
      let pr := specScan rest false ' '
      (c :: pr.1, pr.2)
    else
      let pr := specScan rest inq qc
      (c :: pr.1, pr.2)

/-- Spec-side: the whitespace-split, quote-stripped words of a line, in
original order (§4.1, §8 of the specification), with no token bound. -/
def specWordsGo : Nat → List Char → List (List Char)
  | 0, _ => []
  | fuel+1, l =>
    match l.dropWhile isWS with
    | [] => []
    | c :: rest =>
      let pr := specScan (c :: rest) false ' '
      stripQuotes pr.1 :: specWordsGo fuel pr.2

/-- Spec-side: top level of `specWordsGo`. -/
def specWords (l : List Char) : List (List Char) :=
  specWordsGo (l.length + 1) l

/-- One pipeline stage, `cmd_t` (myshell.c lines 137-142): argument
vector, optional input and output redirection targets, append flag.
The C `argv` array is `NULL`-terminated; here the list simply ends. -/
structure cmd_t where
  argv : List (List Char)
  infile : Option (List Char)
  outfile : Option (List Char)
  append : Bool
deriving DecidableEq

/-- The two parse-error reports of `parse_commands`: "too many pipeline
segments" (line 164) and "syntax error: </> needs file" (lines 170 and
175). -/
inductive ParseErr where
  | tooManySegments
  | redirNeedsFile
deriving DecidableEq

/-- Result of `parse_commands`: `-1` with an error report, or the stage
array `cmds[0..ncmds-1]` together with the background flag. -/
inductive ParseResult where
  | err (e : ParseErr)
  | ok (cmds : List cmd_t) (background : Bool)
deriving DecidableEq

/-- The token loop of `parse_commands` (myshell.c lines 145-186).
`cur` is the stage under construction `cmds[ci]`, `done` the finalized
stages `cmds[0..ci-1]`, `bg` the background flag.  `&` sets the flag
(lines 158-160); `|` finalizes the stage and errors when `ci` would
reach `MAX_TOKENS = 256` (lines 161-168); `<` and `>`/`>>` consume the
following token as redirection target and error when there is none
(lines 169-178); any other token is appended to the argument vector
(line 180). -/
def parseGo : List (List Char) → cmd_t → List cmd_t → Bool → ParseResult
  | [], cur, done, bg => .ok (done ++ [cur]) bg
  | t :: rest, cur, done, bg =>
    if t = ampW then parseGo rest cur done true
    else if t = pipeW then
      if done.length + 1 ≥ 256 then .err .tooManySegments
      else parseGo rest ⟨[], none, none, false⟩ (done ++ [cur]) bg
    else if t = ltW then
      match rest with
      | [] => .err .redirNeedsFile
      | f :: rest2 => parseGo rest2 { cur with infile := some f } done bg
    else if t = gtW ∨ t = ggW then
      match rest with
      | [] => .err .redirNeedsFile
      | f :: rest2 =>
        parseGo rest2 { cur with outfile := some f, append := decide (t = ggW) } done bg
    else
      parseGo rest { cur with argv := cur.argv ++ [t] } done bg

/-- `parse_commands` (myshell.c lines 145-186): the initial stage is
empty with no redirections (lines 148-151), the background flag starts
false (line 153). -/
def parse_commands (ts : List (List Char)) : ParseResult :=
  parseGo ts ⟨[], none, none, false⟩ [] false

/-- Whether `run_builtin` (myshell.c lines 189-208) returns 1 for a
stage: the argument vector is nonempty and its first entry is `cd`,
`exit` or `jobs` (the three `strcmp` chains, lines 191, 196, 199); an
empty argument vector returns 0 (line 190). -/
def run_builtin_takes (c : cmd_t) : Bool :=
  match c.argv with
  | [] => false
  | a :: _ =>
    if a = cdW then true
    else if a = exitW then true
    else if a = jobsW then true
    else false

/-- The routing test of `main` (myshell.c line 347): `ncmds == 1 &&
run_builtin(&cmds[0])`.  True exactly when the command runs inside the
shell's own process; otherwise `execute_pipeline` is called. -/
def mainRoutesToBuiltin : List cmd_t → Bool
  | [c] => run_builtin_takes c
  | _ => false

/-- Spec-side: the routing condition claim C1 states — exactly one
stage, no input-file and no output-file redirection target, and a
builtin first argument. -/
def specRoutesToBuiltin (cmds : List cmd_t) : Bool :=
  match cmds with
  | [c] => (c.infile = none : Bool) && (c.outfile = none : Bool) && run_builtin_takes c
  | _ => false

/-- What `main`'s loop body (myshell.c lines 332-355) does with one
trimmed nonempty input line. -/
inductive LineAction where
  | skipEmpty
  | skipParseError
  | builtin
  | pipeline (cmds : List cmd_t) (background : Bool)
deriving DecidableEq

/-- The per-line dispatch of `main` (myshell.c lines 332-355): tokenize
(line 334, skipping when no tokens), parse (line 341, skipping on a
parse error), then either run the single builtin in the parent (line
347) or call `execute_pipeline` (line 353). -/
def lineAction (l : List Char) : LineAction :=
  let ts := tokenize l 256
  if ts = [] then .skipEmpty
  else
    match parse_commands ts with
    | .err _ => .skipParseError
    | .ok cmds bg => if mainRoutesToBuiltin cmds then .builtin else .pipeline cmds bg

/-- Number of `|` tokens in a token sequence. -/
def pipeCount : List (List Char) → Nat
  | [] => 0
  | t :: tl => (if t = pipeW then 1 else 0) + pipeCount tl

/-- One slot of the job table, `job_t` (myshell.c lines 27-31): process
id, saved command line (the C buffer holds 512 bytes, so at most 511
characters are kept), and the liveness flag (`int running`, always 0 or
1, modelled as `Bool`). -/
structure job_t where
  pid : Int
  cmdline : List Char
  running : Bool
deriving DecidableEq

/-- `add_job` (myshell.c lines 35-46) over the job-slot array (the
program's table has `MAX_JOBS = 128` slots; the list is its prefix scan):
the first slot whose `running` flag is clear receives the pid, the
command line truncated by `strncpy(dst, src, 511)`, and `running = 1`;
the returned value is the printed 1-based display index `i+1`, or
`none` when every slot is running ("job list full", line 45). -/
def add_job : List job_t → Int → List Char → List job_t × Option Nat
  | [], _, _ => ([], none)
  | j :: tl, p, cl =>
    if j.running then
      let pr := add_job tl p cl
      (j :: pr.1, pr.2.map (· + 1))
    else (⟨p, cl.take 511, true⟩ :: tl, some 1)

/-- `mark_job_done` (myshell.c lines 48-61): clear the `running` flag of
the first slot that is running with the given pid and return (the
completion notice it prints carries no table state); when no slot
matches, the table is returned unchanged. -/
def mark_job_done : List job_t → Int → List job_t
  | [], _ => []
  | j :: tl, p =>
    if j.running = true ∧ j.pid = p then { j with running := false } :: tl
    else j :: mark_job_done tl p

/-- One result of a `waitpid(-1, &status, WNOHANG)` call inside the
SIGCHLD handler (myshell.c line 69): the returned pid, the status, and
the value `errno` holds after the call (and after the completion notice
`mark_job_done` may print) — both may clobber `errno` arbitrarily. -/
structure WaitRes where
  pid : Int
  status : Int
  errnoAfter : Int
deriving DecidableEq

/-- The state the SIGCHLD handler touches: `errno` and the job table. -/
structure SigState where
  errno : Int
  jobs : List job_t
deriving DecidableEq

/-- The drain loop of `sigchld_handler` (myshell.c lines 67-72): consume
`waitpid` results in order; a result with `pid <= 0` stops the loop,
any other result marks that job done.  The environment supplies finitely
many reapable children, after which `waitpid` returns `0` or `-1`; the
list `evs` is that response sequence. -/
def drainLoop : List WaitRes → SigState → SigState
  | [], s => s
  | ev :: tl, s =>
    let s1 : SigState := { s with errno := ev.errnoAfter }
    if ev.pid ≤ 0 then s1
    else drainLoop tl { s1 with jobs := mark_job_done s1.jobs ev.pid }

/-- `sigchld_handler` (myshell.c lines 64-74): save `errno` (line 66),
drain all terminated children without blocking (lines 67-72), restore
`errno` (line 73). -/
def sigchld_handler (evs : List WaitRes) (s : SigState) : SigState :=
  let saved_errno := s.errno
  let s1 := drainLoop evs s
  { s1 with errno := saved_errno }

/-- One end of one of the executor's pipes: `r j` / `w j` are the read
and write descriptors returned by the `pipe(pipe_fd)` call of iteration
`j` of `execute_pipeline`'s loop (myshell.c line 222). -/
inductive PFd where
  | r : Nat → PFd
  | w : Nat → PFd
deriving DecidableEq

/-- `close(fd)` on a descriptor set: removes the (single) open instance
of `fd`. -/
def closeFd : List PFd → PFd → List PFd
  | [], _ => []
  | d :: tl, fd => if d = fd then tl else d :: closeFd tl fd

/-- The parent's open pipe descriptors after the loop body of
`execute_pipeline` (myshell.c lines 220-275) for stage `i` of `n`:
a pipe is created when `i < n-1` (line 222), then — after the fork —
the parent closes `prev_fd` (the read end of pipe `i-1`, line 271) and
the write end of the new pipe (line 272), keeping `prev_fd = pipe_fd[0]`
(line 273). -/
def stageParent (n i : Nat) (s : List PFd) : List PFd :=
  let s1 := if i + 1 < n then s ++ [PFd.r i, PFd.w i] else s
  let s2 := if 0 < i then closeFd s1 (PFd.r (i - 1)) else s1
  if i + 1 < n then closeFd s2 (PFd.w i) else s2

/-- Parent's open pipe descriptors after setting up stage `i` (folding
`stageParent` over the loop of myshell.c lines 220-275). -/
def parentAfter (n : Nat) : Nat → List PFd
  | 0 => stageParent n 0 []
  | i+1 => stageParent n (i+1) (parentAfter n i)

/-- Parent's open pipe descriptors on entering iteration `i` of the
loop. -/
def parentBeforeStage (n i : Nat) : List PFd :=
  match i with
  | 0 => []
  | i'+1 => parentAfter n i'

/-- The pipe descriptors child `i` inherits at `fork()` (myshell.c line
227): everything the parent holds, the freshly created pipe (when
`i < n-1`) included. -/
def childAtFork (n i : Nat) : List PFd :=
  let s := parentBeforeStage n i
  if i + 1 < n then s ++ [PFd.r i, PFd.w i] else s

/-- The pipe descriptors child `i` still holds when it reaches
`execvp` (myshell.c lines 230-265): after `dup2` it closes `prev_fd`
(lines 235-238), the write end of its own pipe (lines 239-242), and the
unused read end of its own pipe (line 261).  Redirection files (lines
245-258) open and close their own descriptor and touch no pipe end. -/
def childAtExec (n i : Nat) : List PFd :=
  let s0 := childAtFork n i
  let s1 := if 0 < i then closeFd s0 (PFd.r (i - 1)) else s0
  let s2 := if i + 1 < n then closeFd s1 (PFd.w i) else s1
  if i + 1 < n then closeFd s2 (PFd.r i) else s2

/-- The running value of `last_pid` after `execute_pipeline`'s loop
(myshell.c lines 215 and 270): `-1` before any fork, then the pid of
each forked stage in turn; `pids i` is the pid `fork()` returned for
stage `i`. -/
def last_pid (pids : Nat → Int) (n : Nat) : Int :=
  List.foldl (fun _ i => pids i) (-1) (List.range n)

/-- The job-table step at the end of `execute_pipeline` (myshell.c
lines 277-288): a backgrounded pipeline records the last stage's pid
and the command line via `add_job`; a foreground pipeline waits instead
and leaves the table alone. -/
def execute_jobStep (tbl : List job_t) (background : Bool) (pids : Nat → Int)
    (n : Nat) (cmdline : List Char) : List job_t × Option Nat :=
  if background then add_job tbl (last_pid pids n) cmdline else (tbl, none)

/-- Result of `tokenize` under an allocation oracle: either the token
array (a failed operator-token `strdup` stores a null pointer, hence
`Option`), or undefined behaviour (`crash`) from writing through the
null result of an unchecked word-token `malloc` (myshell.c lines
116-123). -/
inductive TokAllocOut where
  | crash
  | out (ts : List (Option (List Char)))
deriving DecidableEq

/-- Prepend a token to an allocation-oracle result, propagating a
crash. -/
def mcons (t : Option (List Char)) : TokAllocOut → TokAllocOut
  | .crash => .crash
  | .out ts => .out (t :: ts)

/-- The loop of `tokenize` with each allocation made explicit: `a k`
tells whether the `k`-th allocation of the call succeeds.  An operator
token is copied with `strdup` (myshell.c lines 95 and 98) whose failure
is not checked — the null pointer is stored and the loop continues; a
word token is copied into an unchecked `malloc(len+1)` buffer (line
116) whose failure makes the copy loop write through a null pointer. -/
def tokenizeAllocGo : Nat → List Char → Nat → Nat → (Nat → Bool) → Nat → TokAllocOut
  | 0, _, _, _, _, _ => .out []
  | fuel+1, l, n, maxT, a, k =>
    if l = [] then .out []
    else if ¬ n + 1 < maxT then .out []
    else
      match l.dropWhile isWS with
      | [] => .out []
      | c :: rest =>
        if isOpChar c = true then
          if c = '>' ∧ rest.head? = some '>' then
            mcons (if a k then some ggW else none)
              (tokenizeAllocGo fuel (rest.drop 1) (n+1) maxT a (k+1))
          else
            mcons (if a k then some [c] else none)
              (tokenizeAllocGo fuel rest (n+1) maxT a (k+1))
        else
          let pr := scanWord (c :: rest) false ' '
          if a k then
            mcons (some (stripQuotes pr.1))
              (tokenizeAllocGo fuel pr.2 (n+1) maxT a (k+1))
          else .crash

/-- `tokenize` (myshell.c lines 85-129) with its allocations explicit:
allocation 0 is the `strdup(line)` of line 86, whose failure is the one
checked case — it returns 0 tokens (line 87). -/
def tokenizeAlloc (l : List Char) (maxT : Nat) (a : Nat → Bool) : TokAllocOut :=
  if a 0 then tokenizeAllocGo (l.length + 1) l 0 maxT a 1 else .out []

/-! Helper lemmas (shared between claims). -/

/-- With every allocation succeeding, the oracle-instrumented tokenizer
loop computes exactly the plain tokenizer loop's tokens. -/
theorem tokenizeAllocGo_all_ok (fuel : Nat) : ∀ (l : List Char) (n maxT k : Nat),
    tokenizeAllocGo fuel l n maxT (fun _ => true) k =
      .out ((tokenizeGo fuel l n maxT).map some) := by
  induction fuel with
  | zero => intro l n maxT k; rfl
  | succ fuel ih =>
    intro l n maxT k
    simp only [tokenizeAllocGo, tokenizeGo]
    by_cases h1 : l = []
    · simp [h1]
    · simp only [if_neg h1]
      by_cases h2 : n + 1 < maxT
      · simp only [if_neg (not_not_intro h2)]
        rcases hdw : l.dropWhile isWS with _ | ⟨c, rest⟩
        · rfl
        · by_cases hop : isOpChar c = true
          · simp only [if_pos hop]
            by_cases hgg : c = '>' ∧ rest.head? = some '>'
            · simp [if_pos hgg, ih, mcons]
            · simp [if_neg hgg, ih, mcons]
          · simp [if_neg hop, ih, mcons]
      · simp [if_pos h2, h2]

/-- `parseGo` on a run of plain word tokens appends them all to the
current stage's argument vector, in order. -/
theorem parseGo_words : ∀ (ts : List (List Char)) (cur : cmd_t) (done : List cmd_t) (bg : Bool),
    (∀ t ∈ ts, t ∉ opTokens) →
    parseGo ts cur done bg = .ok (done ++ [{ cur with argv := cur.argv ++ ts }]) bg := by
  intro ts
  induction ts with
  | nil =>
    intro cur done bg _
    simp only [parseGo, List.append_nil]
  | cons t tl ih =>
    intro cur done bg hmem
    have ht : t ∉ opTokens := hmem t (List.mem_cons_self t tl)
    have h1 : ¬ t = ampW := fun h => ht (by simp [opTokens, h])
    have h2 : ¬ t = pipeW := fun h => ht (by simp [opTokens, h])
    have h3 : ¬ t = ltW := fun h => ht (by simp [opTokens, h])
    have h4 : ¬ (t = gtW ∨ t = ggW) := fun h => ht (by rcases h with h | h <;> simp [opTokens, h])
    rw [parseGo.eq_def]
    simp only [if_neg h1, if_neg h2, if_neg h3, if_neg h4]
    rw [ih _ done bg (fun u hu => hmem u (List.mem_cons_of_mem t hu))]
    simp [List.append_assoc]

/-- Unfolding of one `tokenize` loop iteration that reaches a token
start `c :: rest` after skipping whitespace. -/
theorem tokenizeGo_step (fuel n maxT : Nat) (l : List Char) (c : Char) (rest : List Char)
    (hn : n + 1 < maxT) (hl : l ≠ []) (hdw : l.dropWhile isWS = c :: rest) :
    tokenizeGo (fuel + 1) l n maxT =
      if isOpChar c = true then
        if c = '>' ∧ rest.head? = some '>' then
          ggW :: tokenizeGo fuel (rest.drop 1) (n + 1) maxT
        else [c] :: tokenizeGo fuel rest (n + 1) maxT
      else
        stripQuotes (scanWord (c :: rest) false ' ').1 ::
          tokenizeGo fuel (scanWord (c :: rest) false ' ').2 (n + 1) maxT := by
  simp only [tokenizeGo]
  rw [if_neg hl, if_neg (not_not_intro hn), hdw]

/-- A `tokenize` loop iteration finding only whitespace (or nothing)
produces no further tokens. -/
theorem tokenizeGo_stop (fuel n maxT : Nat) (l : List Char)
    (hdw : l.dropWhile isWS = []) : tokenizeGo (fuel + 1) l n maxT = [] := by
  simp only [tokenizeGo]
  by_cases hl : l = []
  · rw [if_pos hl]
  · rw [if_neg hl]
    by_cases hn : n + 1 < maxT
    · rw [if_neg (not_not_intro hn), hdw]
    · rw [if_pos hn]

/-- Unfolding of one `specWordsGo` iteration that reaches a word start. -/
theorem specWordsGo_step (fuel : Nat) (l : List Char) (c : Char) (rest : List Char)
    (hdw : l.dropWhile isWS = c :: rest) :
    specWordsGo (fuel + 1) l =
      stripQuotes (specScan (c :: rest) false ' ').1 ::
        specWordsGo fuel (specScan (c :: rest) false ' ').2 := by
  simp only [specWordsGo]
  rw [hdw]

/-- A `specWordsGo` iteration finding only whitespace produces no
further words. -/
theorem specWordsGo_stop (fuel : Nat) (l : List Char) (hdw : l.dropWhile isWS = []) :
    specWordsGo (fuel + 1) l = [] := by
  simp only [specWordsGo]
  rw [hdw]

/-- `add_job` with slot `i` the first inactive one (every earlier slot
running): that slot is overwritten with the new record and the printed
display index is `i + 1`. -/
theorem add_job_free : ∀ (tbl : List job_t) (p : Int) (cl : List Char) (i : Nat) (j0 : job_t),
    tbl[i]? = some j0 → j0.running = false →
    (∀ k jk, k < i → tbl[k]? = some jk → jk.running = true) →
    add_job tbl p cl = (tbl.set i ⟨p, cl.take 511, true⟩, some (i + 1)) := by
  intro tbl
  induction tbl with
  | nil => intro p cl i j0 hget _ _; simp at hget
  | cons j tl ih =>
    intro p cl i j0 hget hrun hbefore
    cases i with
    | zero =>
      have hj : j = j0 := by simpa using hget
      subst hj
      simp [add_job, hrun]
    | succ i =>
      have hj : j.running = true := hbefore 0 j (Nat.succ_pos i) (by simp)
      have hrec := ih p cl i j0 (by simpa using hget) hrun
        (fun k jk hk hget2 => hbefore (k+1) jk (by omega) (by simpa using hget2))
      simp [add_job, hj, hrec]

/-- `add_job` on a table whose every slot is running changes nothing
and allocates no index. -/
theorem add_job_full : ∀ (tbl : List job_t) (p : Int) (cl : List Char),
    (∀ j ∈ tbl, j.running = true) → add_job tbl p cl = (tbl, none) := by
  intro tbl
  induction tbl with
  | nil => intro p cl _; rfl
  | cons j tl ih =>
    intro p cl hall
    have hj : j.running = true := hall j (List.mem_cons_self j tl)
    simp [add_job, hj, ih p cl (fun u hu => hall u (List.mem_cons_of_mem j hu))]

/-- `mark_job_done` with slot `i` the first running slot carrying pid
`q`: only that slot's running flag is cleared. -/
theorem mark_job_done_found : ∀ (tbl : List job_t) (q : Int) (i : Nat) (j0 : job_t),
    tbl[i]? = some j0 → j0.running = true → j0.pid = q →
    (∀ k jk, k < i → tbl[k]? = some jk → ¬(jk.running = true ∧ jk.pid = q)) →
    mark_job_done tbl q = tbl.set i ⟨j0.pid, j0.cmdline, false⟩ := by
  intro tbl
  induction tbl with
  | nil => intro q i j0 hget _ _ _; simp at hget
  | cons j tl ih =>
    intro q i j0 hget hrun hpid hbefore
    cases i with
    | zero =>
      have hj : j = j0 := by simpa using hget
      subst hj
      simp [mark_job_done, hrun, hpid]
    | succ i =>
      have hj : ¬(j.running = true ∧ j.pid = q) := hbefore 0 j (Nat.succ_pos i) (by simp)
      have hrec := ih q i j0 (by simpa using hget) hrun hpid
        (fun k jk hk h2 => hbefore (k+1) jk (by omega) (by simpa using h2))
      simp [mark_job_done, hj, hrec]

/-- `mark_job_done` with no running slot carrying pid `q` leaves the
table unchanged. -/
theorem mark_job_done_none : ∀ (tbl : List job_t) (q : Int),
    (∀ j ∈ tbl, ¬(j.running = true ∧ j.pid = q)) → mark_job_done tbl q = tbl := by
  intro tbl
  induction tbl with
  | nil => intro q _; rfl
  | cons j tl ih =>
    intro q hall
    simp [mark_job_done, hall j (List.mem_cons_self j tl),
      ih q (fun u hu => hall u (List.mem_cons_of_mem j hu))]

/-- `last_pid` after the executor's loop is the pid `fork()` returned
for the last stage. -/
theorem last_pid_eq (pids : Nat → Int) (n : Nat) (hn : 1 ≤ n) :
    last_pid pids n = pids (n - 1) := by
  obtain ⟨m, rfl⟩ : ∃ m, n = m + 1 := ⟨n - 1, by omega⟩
  simp [last_pid, List.range_succ]

/-- After each loop iteration the parent holds exactly the read end of
the pipe feeding the next stage, and nothing after the last stage. -/
theorem parentAfter_eq (n : Nat) : ∀ i, i < n →
    parentAfter n i = if i + 1 < n then [PFd.r i] else [] := by
  intro i
  induction i with
  | zero =>
    intro _
    by_cases h1 : 0 + 1 < n <;>
      simp [parentAfter, stageParent, closeFd, h1]
  | succ i ih =>
    intro hi
    have hprev : parentAfter n i = [PFd.r i] := by
      rw [ih (Nat.lt_of_succ_lt hi), if_pos (by omega)]
    by_cases h2 : i + 1 + 1 < n <;>
      simp [parentAfter, stageParent, closeFd, hprev, h2]

/-- The word scanner consumes an initial span of its input: span and
remainder concatenate back to the input. -/
theorem scanWord_append : ∀ (l : List Char) (inq : Bool) (qc : Char),
    (scanWord l inq qc).1 ++ (scanWord l inq qc).2 = l := by
  intro l
  induction l with
  | nil => intro inq qc; rfl
  | cons c rest ih =>
    intro inq qc
    simp only [scanWord]
    by_cases hb1 : inq = false ∧ isWS c = true
    · simp [if_pos hb1]
    · simp only [if_neg hb1]
      by_cases hb2 : inq = false ∧ isQuoteChar c = true
      · simp [if_pos hb2, ih]
      · simp only [if_neg hb2]
        by_cases hb3 : inq = true ∧ c = qc
        · simp [if_pos hb3, ih]
        · simp only [if_neg hb3]
          by_cases hb4 : inq = false ∧ isOpChar c = true
          · simp [if_pos hb4]
          · simp [if_neg hb4, ih]

/-- A word starting at a non-whitespace, non-operator character is
nonempty. -/
theorem scanWord_ne_nil (c : Char) (rest : List Char) (qc : Char)
    (hws : isWS c = false) (hop : isOpChar c = false) :
    (scanWord (c :: rest) false qc).1 ≠ [] := by
  by_cases hq : isQuoteChar c = true <;> simp [scanWord, hws, hop, hq]

/-- The word scanner agrees with the spec-side scanner unless it
stopped at an unquoted operator character, which then heads the
remainder. -/
theorem scanWord_spec_or_op : ∀ (l : List Char) (inq : Bool) (qc : Char),
    scanWord l inq qc = specScan l inq qc ∨
    ∃ d r2, (scanWord l inq qc).2 = d :: r2 ∧ isOpChar d = true := by
  intro l
  induction l with
  | nil => intro inq qc; exact Or.inl rfl
  | cons c rest ih =>
    intro inq qc
    by_cases hb1 : inq = false ∧ isWS c = true
    · left; simp [scanWord, specScan, if_pos hb1]
    · by_cases hb2 : inq = false ∧ isQuoteChar c = true
      · rcases ih true c with h | ⟨d, r2, hd, hdop⟩
        · left; simp [scanWord, specScan, if_neg hb1, if_pos hb2, h]
        · right
          exact ⟨d, r2, by simp [scanWord, if_neg hb1, if_pos hb2, hd], hdop⟩
      · by_cases hb3 : inq = true ∧ c = qc
        · rcases ih false ' ' with h | ⟨d, r2, hd, hdop⟩
          · left
            simp [scanWord, specScan, if_neg hb1, if_neg hb2, if_pos hb3, h]
          · right
            exact ⟨d, r2,
              by simp [scanWord, if_neg hb1, if_neg hb2, if_pos hb3, hd], hdop⟩
        · by_cases hb4 : inq = false ∧ isOpChar c = true
          · right
            exact ⟨c, rest,
              by simp [scanWord, if_neg hb1, if_neg hb2, if_neg hb3, if_pos hb4], hb4.2⟩
          · rcases ih inq qc with h | ⟨d, r2, hd, hdop⟩
            · left
              simp [scanWord, specScan, if_neg hb1, if_neg hb2, if_neg hb3, if_neg hb4, h]
            · right
              exact ⟨d, r2,
                by simp [scanWord, if_neg hb1, if_neg hb2, if_neg hb3, if_neg hb4, hd], hdop⟩

/-- The head surviving `dropWhile isWS` is not whitespace. -/
theorem dropWhile_head_not : ∀ (l : List Char) (c : Char) (rest : List Char),
    l.dropWhile isWS = c :: rest → isWS c = false := by
  intro l
  induction l with
  | nil => intro c rest h; simp at h
  | cons a tl ih =>
    intro c rest h
    by_cases ha : isWS a = true
    · exact ih c rest (by simpa [List.dropWhile_cons, ha] using h)
    · rw [List.dropWhile_cons_of_neg (by simp [ha])] at h
      injection h with h1 _
      subst h1
      simpa using ha

/-- `dropWhile` never lengthens a list. -/
theorem dropWhile_length_le (l : List Char) : (l.dropWhile isWS).length ≤ l.length := by
  induction l with
  | nil => simp
  | cons a tl ih =>
    by_cases ha : isWS a = true
    · rw [List.dropWhile_cons_of_pos ha]
      simp only [List.length_cons]
      omega
    · rw [List.dropWhile_cons_of_neg (by simp [ha])]

/-- An operator character is one of the four concrete characters. -/
theorem isOpChar_cases (c : Char) (h : isOpChar c = true) :
    c = '>' ∨ c = '<' ∨ c = '|' ∨ c = '&' := by
  rcases (by simpa [isOpChar] using h : ((c = '>' ∨ c = '<') ∨ c = '|') ∨ c = '&') with
    ((h | h) | h) | h
  · exact Or.inl h
  · exact Or.inr (Or.inl h)
  · exact Or.inr (Or.inr (Or.inl h))
  · exact Or.inr (Or.inr (Or.inr h))

/-- Operator characters are not whitespace. -/
theorem isOpChar_not_ws (c : Char) (h : isOpChar c = true) : isWS c = false := by
  rcases isOpChar_cases c h with h | h | h | h <;> subst h <;> decide

/-- Core of C3: an operator-token-free, untruncated run of the
tokenizer loop computes exactly the specification's whitespace-split,
quote-stripped words. -/
theorem tokenizeGo_specWords : ∀ (fuel fuel2 : Nat) (l : List Char) (n : Nat),
    l.length + 1 ≤ fuel → l.length + 1 ≤ fuel2 → n + 1 < 256 →
    (tokenizeGo fuel l n 256).length < 255 - n →
    (∀ t ∈ tokenizeGo fuel l n 256, t ∉ opTokens) →
    tokenizeGo fuel l n 256 = specWordsGo fuel2 l := by
  intro fuel
  induction fuel with
  | zero => intro fuel2 l n hf _ _ _ _; omega
  | succ fuel ih =>
    intro fuel2 l n hf hf2 hn hlen hmem
    obtain ⟨f2, rfl⟩ : ∃ f2, fuel2 = f2 + 1 := ⟨fuel2 - 1, by omega⟩
    rcases hdw : l.dropWhile isWS with _ | ⟨c, rest⟩
    · rw [tokenizeGo_stop fuel n 256 l hdw, specWordsGo_stop f2 l hdw]
    · have hws : isWS c = false := dropWhile_head_not l c rest hdw
      have hlcr : (c :: rest).length ≤ l.length := hdw ▸ dropWhile_length_le l
      have hlne : l ≠ [] := by
        intro h
        subst h
        simp at hdw
      by_cases hop : isOpChar c = true
      · exfalso
        rw [tokenizeGo_step fuel n 256 l c rest hn hlne hdw, if_pos hop] at hmem
        by_cases hgg : c = '>' ∧ rest.head? = some '>'
        · rw [if_pos hgg] at hmem
          exact hmem ggW (List.mem_cons_self _ _) (by decide)
        · rw [if_neg hgg] at hmem
          have hmem2 : [c] ∈ opTokens := by
            rcases isOpChar_cases c hop with h | h | h | h <;> subst h <;> decide
          exact hmem [c] (List.mem_cons_self _ _) hmem2
      · have hopf : isOpChar c = false := by simpa using hop
        have hw1 : (scanWord (c :: rest) false ' ').1 ≠ [] :=
          scanWord_ne_nil c rest ' ' hws hopf
        have hw1len : 1 ≤ (scanWord (c :: rest) false ' ').1.length := by
          rcases h' : (scanWord (c :: rest) false ' ').1 with _ | _
          · exact absurd h' hw1
          · simp
        have hsplit : (scanWord (c :: rest) false ' ').1.length +
            (scanWord (c :: rest) false ' ').2.length = (c :: rest).length := by
          rw [← List.length_append, scanWord_append]
        have hrlen : (scanWord (c :: rest) false ' ').2.length + 1 ≤ l.length := by
          simp only [List.length_cons] at hlcr hsplit
          omega
        rw [tokenizeGo_step fuel n 256 l c rest hn hlne hdw, if_neg hop] at hlen hmem ⊢
        simp only [List.length_cons] at hlen
        rcases scanWord_spec_or_op (c :: rest) false ' ' with heq | ⟨d, r2, hd, hdop⟩
        · rw [specWordsGo_step f2 l c rest hdw, ← heq]
          congr 1
          exact ih f2 _ (n + 1) (by omega) (by omega) (by omega) (by omega)
            (fun t ht => hmem t (List.mem_cons_of_mem _ ht))
        · exfalso
          have hn2 : n + 1 + 1 < 256 := by omega
          have hfge : r2.length + 1 + 1 ≤ fuel := by
            rw [hd] at hrlen
            simp only [List.length_cons] at hrlen
            omega
          obtain ⟨f3, rfl⟩ : ∃ f3, fuel = f3 + 1 := ⟨fuel - 1, by omega⟩
          have hdws : isWS d = false := isOpChar_not_ws d hdop
          have hdw2 : (d :: r2).dropWhile isWS = d :: r2 :=
            List.dropWhile_cons_of_neg (by simp [hdws])
          rw [hd] at hmem
          rw [tokenizeGo_step f3 (n + 1) 256 (d :: r2) d r2 hn2 (by simp) hdw2,
            if_pos hdop] at hmem
          by_cases hgg : d = '>' ∧ r2.head? = some '>'
          · rw [if_pos hgg] at hmem
            exact hmem ggW (List.mem_cons_of_mem _ (List.mem_cons_self _ _)) (by decide)
          · rw [if_neg hgg] at hmem
            have hmem2 : [d] ∈ opTokens := by
              rcases isOpChar_cases d hdop with h | h | h | h <;> subst h <;> decide
            exact hmem [d] (List.mem_cons_of_mem _ (List.mem_cons_self _ _)) hmem2

/-- Inside a quoted span, every character other than the closing quote
— whitespace and operator characters included — is consumed verbatim
into the word, and the scan continues after the closing quote. -/
theorem scanWord_in_quote : ∀ (mid : List Char) (qc : Char) (rest : List Char),
    (∀ c ∈ mid, c ≠ qc) →
    scanWord (mid ++ qc :: rest) true qc =
      (mid ++ qc :: (scanWord rest false ' ').1, (scanWord rest false ' ').2) := by
  intro mid
  induction mid with
  | nil =>
    intro qc rest _
    simp [scanWord]
  | cons m mid ih =>
    intro qc rest hmid
    have hm : m ≠ qc := hmid m (List.mem_cons_self m mid)
    simp [scanWord, hm, ih qc rest (fun u hu => hmid u (List.mem_cons_of_mem m hu))]

/-- Quote characters are not whitespace. -/
theorem isQuoteChar_not_ws (c : Char) (h : isQuoteChar c = true) : isWS c = false := by
  rcases (by simpa [isQuoteChar] using h : c = '\'' ∨ c = '"') with h | h <;>
    subst h <;> decide

/-- With no redirection-operator token left (so every `|` counts as a
stage separator), once the finalized-stage count plus the pending `|`
tokens reaches the 256-stage bound, `parseGo` reports "too many
pipeline segments". -/
theorem parseGo_pipe_overflow :
    ∀ (ts : List (List Char)) (cur : cmd_t) (done : List cmd_t) (bg : Bool),
    ltW ∉ ts → gtW ∉ ts → ggW ∉ ts →
    done.length ≤ 255 → 256 ≤ done.length + pipeCount ts →
    parseGo ts cur done bg = .err .tooManySegments := by
  intro ts
  induction ts with
  | nil =>
    intro cur done bg _ _ _ hle hge
    simp [pipeCount] at hge
    omega
  | cons t tl ih =>
    intro cur done bg h1 h2 h3 hle hge
    have h1' : ltW ∉ tl := fun h => h1 (List.mem_cons_of_mem t h)
    have h2' : gtW ∉ tl := fun h => h2 (List.mem_cons_of_mem t h)
    have h3' : ggW ∉ tl := fun h => h3 (List.mem_cons_of_mem t h)
    by_cases hamp : t = ampW
    · have hnp : ¬ t = pipeW := by subst hamp; decide
      rw [parseGo.eq_def]
      simp only [if_pos hamp]
      exact ih cur done true h1' h2' h3' hle
        (by simpa [pipeCount, hnp] using hge)
    · by_cases hpipe : t = pipeW
      · rw [parseGo.eq_def]
        simp only [if_neg hamp, if_pos hpipe]
        by_cases hovf : done.length + 1 ≥ 256
        · simp only [if_pos hovf]
        · simp only [if_neg hovf]
          exact ih ⟨[], none, none, false⟩ (done ++ [cur]) bg h1' h2' h3'
            (by simp only [List.length_append, List.length_singleton]; omega)
            (by simp only [List.length_append, List.length_singleton]
                simp only [pipeCount, if_pos hpipe] at hge
                omega)
      · have hlt : ¬ t = ltW := fun h => h1 (by simp [h])
        have hgt : ¬ t = gtW := fun h => h2 (by simp [h])
        have hgg : ¬ t = ggW := fun h => h3 (by simp [h])
        rw [parseGo.eq_def]
        simp only [if_neg hamp, if_neg hpipe, if_neg hlt,
          if_neg (show ¬(t = gtW ∨ t = ggW) from fun h => h.elim hgt hgg)]
        exact ih _ done bg h1' h2' h3' hle (by simpa [pipeCount, hpipe] using hge)

/-! Claim theorems. -/

/-- C8: at least 256 `|` tokens (none of them consumed as a
redirection file name, which the absence of `<`, `>`, `>>` tokens
guarantees) would need more stages than the 256-slot stage array
holds, and `parse_commands` rejects the sequence with the "too many
pipeline segments" parse error, producing no pipeline; and whenever
parsing a line fails, `main` abandons the line — nothing is executed
and nothing partially runs. -/
theorem c8_stage_overflow :
    (∀ ts : List (List Char), ltW ∉ ts → gtW ∉ ts → ggW ∉ ts →
       256 ≤ pipeCount ts → parse_commands ts = .err .tooManySegments) ∧
    (∀ (l : List Char) (e : ParseErr), parse_commands (tokenize l 256) = .err e →
       lineAction l = .skipParseError) := by
  constructor
  · intro ts h1 h2 h3 hp
    exact parseGo_pipe_overflow ts _ [] false h1 h2 h3 (by simp) (by simpa using hp)
  · intro l e h
    by_cases hts : tokenize l 256 = []
    · rw [hts] at h
      simp [parse_commands, parseGo] at h
    · simp [lineAction, hts, h]

set_option maxRecDepth 8000 in
/-- Witness for C8: 256 pipe tokens are rejected, and a failing line
(`<` alone) is skipped. -/
theorem c8_stage_overflow_witness :
    (ltW ∉ List.replicate 256 pipeW ∧ gtW ∉ List.replicate 256 pipeW ∧
     ggW ∉ List.replicate 256 pipeW ∧ 256 ≤ pipeCount (List.replicate 256 pipeW)) ∧
    parse_commands (List.replicate 256 pipeW) = .err .tooManySegments ∧
    (parse_commands (tokenize ['<'] 256) = .err .redirNeedsFile ∧
     lineAction ['<'] = .skipParseError) := by
  refine ⟨⟨by decide, by decide, by decide, by decide⟩, ?_, by decide, ?_⟩
  · exact c8_stage_overflow.1 _ (by decide) (by decide) (by decide) (by decide)
  · exact c8_stage_overflow.2 ['<'] .redirNeedsFile (by decide)

/-- C9: the SIGCHLD handler preserves `errno`: whatever value `errno`
holds on entry and whatever sequence of children the drain loop reaps
(each `waitpid` call and each completion notice clobbering `errno`
arbitrarily), `errno` holds the entry value again when the handler
returns. -/
theorem c9_handler_preserves_errno (evs : List WaitRes) (s : SigState) :
    (sigchld_handler evs s).errno = s.errno := rfl

/-- C4: whenever the parser consumes `<`, `>` or `>>` as an operator, a
following token is required — with none, parsing fails with the
"needs file" parse error and no pipeline is produced; with one, that
token becomes the current stage's input-file (`<`) or output-file
(`>`/`>>`) path, the append flag set exactly when the operator was
`>>`, and parsing continues after the operand. -/
theorem c4_redir_operand (t : List Char) (cur : cmd_t) (done : List cmd_t) (bg : Bool)
    (h : t = ltW ∨ t = gtW ∨ t = ggW) :
    parseGo [t] cur done bg = .err .redirNeedsFile ∧
    ∀ f rest, parseGo (t :: f :: rest) cur done bg =
      parseGo rest
        (if t = ltW then { cur with infile := some f }
         else { cur with outfile := some f, append := decide (t = ggW) }) done bg := by
  rcases h with h | h | h <;> subst h <;> exact ⟨rfl, fun f rest => rfl⟩

/-- Witness for C4 at the concrete operator `<` with operand `f`. -/
theorem c4_redir_operand_witness :
    (ltW = ltW ∨ ltW = gtW ∨ ltW = ggW) ∧
    parseGo [ltW] ⟨[], none, none, false⟩ [] false = .err .redirNeedsFile ∧
    parseGo [ltW, ['f'], ['x']] ⟨[], none, none, false⟩ [] false =
      parseGo [['x']]
        (if ltW = ltW then { (⟨[], none, none, false⟩ : cmd_t) with infile := some ['f'] }
         else { (⟨[], none, none, false⟩ : cmd_t) with
                  outfile := some ['f'], append := decide (ltW = ggW) }) [] false :=
  ⟨Or.inl rfl,
   (c4_redir_operand ltW ⟨[], none, none, false⟩ [] false (Or.inl rfl)).1,
   (c4_redir_operand ltW ⟨[], none, none, false⟩ [] false (Or.inl rfl)).2 ['f'] [['x']]⟩

/-- C1 as stated fails on the code: a single-stage `jobs` command
carrying an output-file redirection target is still routed to the
builtin dispatcher (from the line `jobs > f`), not to the pipeline
executor — `main` and `run_builtin` never consult the redirection
fields. -/
theorem c1_counterexample :
    mainRoutesToBuiltin [⟨[jobsW], none, some ['f'], false⟩] = true ∧
    specRoutesToBuiltin [⟨[jobsW], none, some ['f'], false⟩] = false ∧
    parse_commands (tokenize ['j', 'o', 'b', 's', ' ', '>', ' ', 'f'] 256) =
      .ok [⟨[jobsW], none, some ['f'], false⟩] false ∧
    lineAction ['j', 'o', 'b', 's', ' ', '>', ' ', 'f'] = .builtin := by decide

/-- C1 amended: a parsed pipeline is routed to the builtin dispatcher
iff it has exactly one stage and that stage's argument vector starts
with a builtin name (`cd`, `exit` or `jobs`); the stage's redirection
targets are not consulted. -/
theorem c1_routing_amended (cmds : List cmd_t) :
    mainRoutesToBuiltin cmds = true ↔
      (cmds.length = 1 ∧
        ∀ c ∈ cmds, ∃ a tl, c.argv = a :: tl ∧ (a = cdW ∨ a = exitW ∨ a = jobsW)) := by
  rcases cmds with _ | ⟨c, _ | ⟨d, tl⟩⟩
  · simp [mainRoutesToBuiltin]
  · rcases c with ⟨argv, inf, outf, app⟩
    rcases argv with _ | ⟨a, args⟩
    · simp [mainRoutesToBuiltin, run_builtin_takes]
    · by_cases h1 : a = cdW
      · subst h1; simp [mainRoutesToBuiltin, run_builtin_takes]
      · by_cases h2 : a = exitW
        · subst h2
          simp [mainRoutesToBuiltin, run_builtin_takes, show exitW ≠ cdW from by decide]
        · by_cases h3 : a = jobsW
          · subst h3
            simp [mainRoutesToBuiltin, run_builtin_takes,
              show jobsW ≠ cdW from by decide, show jobsW ≠ exitW from by decide]
          · simp [mainRoutesToBuiltin, run_builtin_takes, h1, h2, h3]
  · simp [mainRoutesToBuiltin]

/-- C2: for every pipeline of `n ≥ 1` stages and every stage `i`,
child `i` has closed every inherited pipe descriptor — including the
unused read end of the pipe it writes into; the write end of the pipe
it reads from was already closed by the parent before the fork, so
child `i` never holds it — before reaching `execvp`, and after stage
`i`'s setup the parent has closed every pipe descriptor it created
except the read end feeding the next stage (none after the last
stage); hence, once the writer exits, no stray writable duplicate of a
pipe remains and each reader observes end-of-stream. -/
theorem c2_descriptor_discipline (n i : Nat) (hn : 1 ≤ n) (hi : i < n) :
    childAtExec n i = [] ∧
    parentAfter n i = (if i + 1 < n then [PFd.r i] else []) := by
  refine ⟨?_, parentAfter_eq n i hi⟩
  cases i with
  | zero =>
    by_cases h1 : 0 + 1 < n <;>
      simp [childAtExec, childAtFork, parentBeforeStage, closeFd, h1]
  | succ i =>
    have hprev : parentAfter n i = [PFd.r i] := by
      rw [parentAfter_eq n i (by omega), if_pos (by omega)]
    by_cases h2 : i + 1 + 1 < n <;>
      simp [childAtExec, childAtFork, parentBeforeStage, closeFd, hprev, h2]

/-- Witness for C2 at the middle stage of a three-stage pipeline. -/
theorem c2_descriptor_discipline_witness :
    (1 ≤ 3 ∧ 1 < 3) ∧
    childAtExec 3 1 = [] ∧
    parentAfter 3 1 = (if 1 + 1 < 3 then [PFd.r 1] else []) :=
  ⟨⟨by decide, by decide⟩,
   (c2_descriptor_discipline 3 1 (by decide) (by decide)).1,
   (c2_descriptor_discipline 3 1 (by decide) (by decide)).2⟩

/-- C6: when a pipeline is launched in the background, the executor
records the pid of the last-spawned stage (the loop's final `last_pid`)
together with the command line (truncated to the 511 characters the
buffer keeps) in the first inactive job slot, marks it running, and
the printed display index is the 1-based `i + 1`; when every slot is
active, nothing is recorded ("job list full") and the table is
unchanged — the spawned processes are simply not tracked. -/
theorem c6_background_recording (tbl : List job_t) (pids : Nat → Int) (n : Nat)
    (cl : List Char) (hn : 1 ≤ n) :
    last_pid pids n = pids (n - 1) ∧
    (∀ (i : Nat) (j0 : job_t), tbl[i]? = some j0 → j0.running = false →
       (∀ (k : Nat) (jk : job_t), k < i → tbl[k]? = some jk → jk.running = true) →
       execute_jobStep tbl true pids n cl =
         (tbl.set i ⟨pids (n - 1), cl.take 511, true⟩, some (i + 1))) ∧
    ((∀ j ∈ tbl, j.running = true) →
       execute_jobStep tbl true pids n cl = (tbl, none)) := by
  refine ⟨last_pid_eq pids n hn, ?_, ?_⟩
  · intro i j0 hget hrun hbefore
    show add_job tbl (last_pid pids n) cl = _
    rw [last_pid_eq pids n hn]
    exact add_job_free tbl _ cl i j0 hget hrun hbefore
  · intro hall
    show add_job tbl (last_pid pids n) cl = _
    exact add_job_full tbl _ cl hall

/-- Witness for C6: a two-stage background pipeline recorded in the
free first slotible, and a full one-slot table left unchanged. -/
theorem c6_background_recording_witness :
    (1 ≤ 2) ∧
    execute_jobStep [⟨0, [], false⟩, ⟨7, [], true⟩] true (fun i => (i : Int) + 10) 2 ['s'] =
      (([⟨0, [], false⟩, ⟨7, [], true⟩] : List job_t).set 0
        ⟨(fun i => (i : Int) + 10) (2 - 1), (['s'] : List Char).take 511, true⟩,
       some (0 + 1)) ∧
    execute_jobStep [⟨7, [], true⟩] true (fun i => (i : Int) + 10) 2 ['s'] =
      ([⟨7, [], true⟩], none) :=
  ⟨by decide,
   (c6_background_recording _ _ 2 _ (by decide)).2.1 0 ⟨0, [], false⟩ (by simp) rfl
     (fun k jk hk _ => absurd hk (Nat.not_lt_zero k)),
   (c6_background_recording _ _ 2 _ (by decide)).2.2 (by decide)⟩

/-- C10: every job-table operation touches at most one slot: `add_job`
writes exactly the first inactive slot (every earlier, running slot and
every other slot keeps its record) and changes nothing when all slots
are running; `mark_job_done` clears the running flag of exactly the
first running slot with the matching pid, preserving that slot's pid
and saved command line and every other slot, and leaves the whole
table unchanged when no running slot matches. -/
theorem c10_jobtable_frame (tbl : List job_t) (p q : Int) (cl : List Char) :
    (∀ (i : Nat) (j0 : job_t), tbl[i]? = some j0 → j0.running = false →
       (∀ (k : Nat) (jk : job_t), k < i → tbl[k]? = some jk → jk.running = true) →
       (add_job tbl p cl).1[i]? = some ⟨p, cl.take 511, true⟩ ∧
       (add_job tbl p cl).2 = some (i + 1) ∧
       ∀ k, k ≠ i → (add_job tbl p cl).1[k]? = tbl[k]?) ∧
    ((∀ j ∈ tbl, j.running = true) → (add_job tbl p cl).1 = tbl) ∧
    (∀ (i : Nat) (j0 : job_t), tbl[i]? = some j0 → j0.running = true → j0.pid = q →
       (∀ (k : Nat) (jk : job_t), k < i → tbl[k]? = some jk →
         ¬(jk.running = true ∧ jk.pid = q)) →
       (mark_job_done tbl q)[i]? = some ⟨j0.pid, j0.cmdline, false⟩ ∧
       ∀ k, k ≠ i → (mark_job_done tbl q)[k]? = tbl[k]?) ∧
    ((∀ j ∈ tbl, ¬(j.running = true ∧ j.pid = q)) → mark_job_done tbl q = tbl) := by
  refine ⟨?_, ?_, ?_, mark_job_done_none tbl q⟩
  · intro i j0 hget hrun hbefore
    have hi : i < tbl.length := (List.getElem?_eq_some.mp hget).1
    rw [add_job_free tbl p cl i j0 hget hrun hbefore]
    exact ⟨List.getElem?_set_self hi, rfl,
      fun k hk => List.getElem?_set_ne (fun h => hk h.symm)⟩
  · intro hall
    rw [add_job_full tbl p cl hall]
  · intro i j0 hget hrun hpid hbefore
    have hi : i < tbl.length := (List.getElem?_eq_some.mp hget).1
    rw [mark_job_done_found tbl q i j0 hget hrun hpid hbefore]
    exact ⟨List.getElem?_set_self hi,
      fun k hk => List.getElem?_set_ne (fun h => hk h.symm)⟩

/-- Witness for C10 on concrete two-slot and one-slot tables. -/
theorem c10_jobtable_frame_witness :
    (([⟨4, [], true⟩, ⟨3, ['a'], false⟩] : List job_t)[1]? = some ⟨3, ['a'], false⟩) ∧
    ((add_job [⟨4, [], true⟩, ⟨3, ['a'], false⟩] 9 ['s']).1[1]? =
       some ⟨9, (['s'] : List Char).take 511, true⟩ ∧
     (add_job [⟨4, [], true⟩, ⟨3, ['a'], false⟩] 9 ['s']).2 = some (1 + 1) ∧
     ∀ k, k ≠ 1 → (add_job [⟨4, [], true⟩, ⟨3, ['a'], false⟩] 9 ['s']).1[k]? =
       ([⟨4, [], true⟩, ⟨3, ['a'], false⟩] : List job_t)[k]?) ∧
    ((mark_job_done [⟨4, [], true⟩, ⟨3, ['a'], false⟩] 4)[0]? = some ⟨4, [], false⟩ ∧
     ∀ k, k ≠ 0 → (mark_job_done [⟨4, [], true⟩, ⟨3, ['a'], false⟩] 4)[k]? =
       ([⟨4, [], true⟩, ⟨3, ['a'], false⟩] : List job_t)[k]?) ∧
    mark_job_done [⟨4, [], true⟩, ⟨3, ['a'], false⟩] 99 = [⟨4, [], true⟩, ⟨3, ['a'], false⟩] := by
  refine ⟨by simp, ?_, ?_, ?_⟩
  · exact (c10_jobtable_frame [⟨4, [], true⟩, ⟨3, ['a'], false⟩] 9 4 ['s']).1 1
      ⟨3, ['a'], false⟩ (by simp) rfl
      (fun k jk hk hget => by
        have hk0 : k = 0 := Nat.lt_one_iff.mp hk
        subst hk0
        simp only [List.getElem?_cons_zero, Option.some.injEq] at hget
        subst hget
        rfl)
  · exact (c10_jobtable_frame [⟨4, [], true⟩, ⟨3, ['a'], false⟩] 9 4 ['s']).2.2.1 0
      ⟨4, [], true⟩ (by simp) rfl rfl
      (fun k jk hk _ => absurd hk (Nat.not_lt_zero k))
  · exact (c10_jobtable_frame [⟨4, [], true⟩, ⟨3, ['a'], false⟩] 9 99 ['s']).2.2.2 (by decide)

/-- C7: `a>b` tokenizes as exactly `a`, `>`, `b` and `a>>b` as exactly
`a`, `>>`, `b`; in general the tokenizer distinguishes `>` from `>>`
by exactly one character of lookahead, consuming `>>` as a single
two-character token, and any operator character heading the remaining
input becomes a single-character token with no surrounding whitespace
required. -/
theorem c7_operator_lookahead :
    (tokenize ['a', '>', 'b'] 256 = [['a'], gtW, ['b']] ∧
     tokenize ['a', '>', '>', 'b'] 256 = [['a'], ggW, ['b']]) ∧
    (∀ (fuel n maxT : Nat) (rest : List Char), n + 1 < maxT →
       tokenizeGo (fuel + 1) ('>' :: '>' :: rest) n maxT =
         ggW :: tokenizeGo fuel rest (n + 1) maxT) ∧
    (∀ (fuel n maxT : Nat) (c : Char) (rest : List Char), n + 1 < maxT →
       isOpChar c = true → ¬(c = '>' ∧ rest.head? = some '>') →
       tokenizeGo (fuel + 1) (c :: rest) n maxT =
         [c] :: tokenizeGo fuel rest (n + 1) maxT) := by
  refine ⟨⟨by decide, by decide⟩, ?_, ?_⟩
  · intro fuel n maxT rest hn
    rw [tokenizeGo_step fuel n maxT _ '>' ('>' :: rest) hn (by simp)
      (List.dropWhile_cons_of_neg (by decide))]
    simp [isOpChar]
  · intro fuel n maxT c rest hn hop hgg
    have hws : isWS c = false := by
      rcases (by simpa [isOpChar] using hop :
          ((c = '>' ∨ c = '<') ∨ c = '|') ∨ c = '&') with ((h | h) | h) | h <;>
        subst h <;> decide
    rw [tokenizeGo_step fuel n maxT _ c rest hn (by simp)
      (List.dropWhile_cons_of_neg (by simp [hws]))]
    rw [if_pos hop, if_neg hgg]

/-- Witness for C7's lookahead clauses at concrete inputs. -/
theorem c7_operator_lookahead_witness :
    (0 + 1 < 256 ∧ isOpChar '<' = true ∧
      ¬('<' = '>' ∧ (['b'] : List Char).head? = some '>')) ∧
    tokenizeGo (3 + 1) ('>' :: '>' :: ['b']) 0 256 = ggW :: tokenizeGo 3 ['b'] (0 + 1) 256 ∧
    tokenizeGo (3 + 1) ('<' :: ['b']) 0 256 = ['<'] :: tokenizeGo 3 ['b'] (0 + 1) 256 :=
  ⟨⟨by decide, by decide, by decide⟩,
   c7_operator_lookahead.2.1 3 0 256 ['b'] (by decide),
   c7_operator_lookahead.2.2 3 0 256 '<' ['b'] (by decide) (by decide) (by decide)⟩

/-- The tokenizer loop stops silently once `n` reaches
`max_tokens - 1`, whatever input remains. -/
theorem tokenizeGo_quota (fuel n maxT : Nat) (l : List Char) (hq : ¬ n + 1 < maxT) :
    tokenizeGo (fuel + 1) l n maxT = [] := by
  simp only [tokenizeGo]
  by_cases hl : l = []
  · rw [if_pos hl]
  · rw [if_neg hl, if_pos hq]

/-- Leading whitespace is skipped by the tokenizer loop. -/
theorem tokenizeGo_cons_ws (fuel n maxT : Nat) (c : Char) (l : List Char)
    (hws : isWS c = true) (hq : n + 1 < maxT) :
    tokenizeGo (fuel + 1) (c :: l) n maxT = tokenizeGo (fuel + 1) l n maxT := by
  rcases l with _ | ⟨d, l2⟩
  · simp [tokenizeGo, hws]
  · simp only [tokenizeGo]
    rw [if_neg (show ¬(c :: d :: l2 = []) from by simp),
      if_neg (show ¬(d :: l2 = []) from by simp), if_neg (not_not_intro hq),
      if_neg (not_not_intro hq), List.dropWhile_cons_of_pos hws]

/-- Leading whitespace is skipped by the spec-side word splitter. -/
theorem specWordsGo_cons_ws (fuel : Nat) (c : Char) (l : List Char) (hws : isWS c = true) :
    specWordsGo (fuel + 1) (c :: l) = specWordsGo (fuel + 1) l := by
  rcases l with _ | ⟨d, l2⟩
  · simp [specWordsGo, hws]
  · simp only [specWordsGo]
    rw [List.dropWhile_cons_of_pos hws]

/-- The tokenizer on `k` repetitions of the word `a` followed by a
blank emits one `a` token per word until the token bound cuts it off. -/
theorem tokenizeGo_rep : ∀ (k fuel n : Nat),
    2 * k + 1 ≤ fuel → n ≤ 255 →
    tokenizeGo fuel ((List.replicate k ['a', ' ']).flatten) n 256 =
      List.replicate (min k (255 - n)) ['a'] := by
  intro k
  induction k with
  | zero =>
    intro fuel n hf _
    obtain ⟨f, rfl⟩ : ∃ f, fuel = f + 1 := ⟨fuel - 1, by omega⟩
    simp [tokenizeGo]
  | succ k ih =>
    intro fuel n hf hn
    obtain ⟨f, rfl⟩ : ∃ f, fuel = f + 1 := ⟨fuel - 1, by omega⟩
    have hflat : (List.replicate (k + 1) ['a', ' ']).flatten =
        'a' :: ' ' :: (List.replicate k ['a', ' ']).flatten := by
      simp [List.replicate_succ]
    rw [hflat]
    by_cases hq : n + 1 < 256
    · have hscan : scanWord ('a' :: ' ' :: (List.replicate k ['a', ' ']).flatten) false ' ' =
          (['a'], ' ' :: (List.replicate k ['a', ' ']).flatten) := rfl
      rw [tokenizeGo_step f n 256 _ 'a' (' ' :: (List.replicate k ['a', ' ']).flatten) hq
        (by simp) (List.dropWhile_cons_of_neg (by decide)),
        if_neg (by decide : ¬ isOpChar 'a' = true), hscan]
      obtain ⟨f2, rfl⟩ : ∃ f2, f = f2 + 1 := ⟨f - 1, by omega⟩
      by_cases hq2 : n + 1 + 1 < 256
      · rw [tokenizeGo_cons_ws f2 (n + 1) 256 ' ' _ (by decide) hq2,
          ih (f2 + 1) (n + 1) (by omega) (by omega),
          show min (k + 1) (255 - n) = min k (255 - (n + 1)) + 1 from by omega,
          List.replicate_succ]
        rfl
      · rw [tokenizeGo_quota f2 (n + 1) 256 _ hq2,
          show min (k + 1) (255 - n) = 1 from by omega]
        rfl
    · rw [tokenizeGo_quota f n 256 _ hq,
        show min (k + 1) (255 - n) = 0 from by omega]
      rfl

/-- The spec-side word splitter on `k` repetitions of the word `a`
followed by a blank yields all `k` words. -/
theorem specWordsGo_rep : ∀ (k fuel : Nat), 2 * k + 1 ≤ fuel →
    specWordsGo fuel ((List.replicate k ['a', ' ']).flatten) = List.replicate k ['a'] := by
  intro k
  induction k with
  | zero =>
    intro fuel hf
    obtain ⟨f, rfl⟩ : ∃ f, fuel = f + 1 := ⟨fuel - 1, by omega⟩
    simp [specWordsGo]
  | succ k ih =>
    intro fuel hf
    obtain ⟨f, rfl⟩ : ∃ f, fuel = f + 1 := ⟨fuel - 1, by omega⟩
    have hflat : (List.replicate (k + 1) ['a', ' ']).flatten =
        'a' :: ' ' :: (List.replicate k ['a', ' ']).flatten := by
      simp [List.replicate_succ]
    rw [hflat]
    have hspec : specScan ('a' :: ' ' :: (List.replicate k ['a', ' ']).flatten) false ' ' =
        (['a'], ' ' :: (List.replicate k ['a', ' ']).flatten) := rfl
    rw [specWordsGo_step f _ 'a' _ (List.dropWhile_cons_of_neg (by decide)), hspec]
    obtain ⟨f2, rfl⟩ : ∃ f2, f = f2 + 1 := ⟨f - 1, by omega⟩
    rw [specWordsGo_cons_ws f2 ' ' _ (by decide), ih (f2 + 1) (by omega),
      List.replicate_succ]
    rfl

/-- Length of the 256-word counterexample line. -/
theorem flatten_rep_length : ∀ k : Nat,
    ((List.replicate k ['a', ' ']).flatten).length = 2 * k := by
  intro k
  induction k with
  | zero => rfl
  | succ k ih =>
    simp only [List.replicate_succ, List.flatten_cons, List.length_append, ih,
      List.length_cons, List.length_nil]
    omega

/-- C3 as stated fails on the code for a 256-word line: the tokenizer
stops after emitting `MAX_TOKENS - 1 = 255` tokens, so although the
line contains no operator tokens, the parsed argument vector silently
misses the 256th word and is not the whitespace-split word list of the
line. -/
theorem c3_counterexample :
    (∀ t ∈ tokenize ((List.replicate 256 ['a', ' ']).flatten) 256, t ∉ opTokens) ∧
    tokenize ((List.replicate 256 ['a', ' ']).flatten) 256 ≠
      specWords ((List.replicate 256 ['a', ' ']).flatten) ∧
    parse_commands (tokenize ((List.replicate 256 ['a', ' ']).flatten) 256) ≠
      .ok [⟨specWords ((List.replicate 256 ['a', ' ']).flatten), none, none, false⟩] false := by
  have hlen : ((List.replicate 256 ['a', ' ']).flatten).length = 512 :=
    flatten_rep_length 256
  have htok : tokenize ((List.replicate 256 ['a', ' ']).flatten) 256 =
      List.replicate 255 ['a'] := by
    unfold tokenize
    rw [hlen, tokenizeGo_rep 256 513 0 (by omega) (by omega)]
    norm_num
  have hspec : specWords ((List.replicate 256 ['a', ' ']).flatten) =
      List.replicate 256 ['a'] := by
    unfold specWords
    rw [hlen]
    exact specWordsGo_rep 256 513 (by omega)
  have hne : List.replicate 255 (['a'] : List Char) ≠ List.replicate 256 ['a'] := by
    intro h
    have h2 := congrArg List.length h
    rw [List.length_replicate, List.length_replicate] at h2
    omega
  refine ⟨?_, ?_, ?_⟩
  · intro t ht
    rw [htok] at ht
    have h3 := List.eq_of_mem_replicate ht
    subst h3
    decide
  · rw [htok, hspec]
    exact hne
  · rw [htok, hspec]
    have hmem : ∀ t ∈ List.replicate 255 (['a'] : List Char), t ∉ opTokens := by
      intro t ht
      have h3 := List.eq_of_mem_replicate ht
      subst h3
      decide
    have hpc : parse_commands (List.replicate 255 ['a']) =
        .ok [⟨List.replicate 255 ['a'], none, none, false⟩] false :=
      parseGo_words (List.replicate 255 ['a']) ⟨[], none, none, false⟩ [] false hmem
    rw [hpc]
    intro hcontra
    simp only [ParseResult.ok.injEq, List.cons.injEq, cmd_t.mk.injEq, and_true] at hcontra
    exact hne hcontra

/-- C3 amended: (a) within a quoted span every character other than
the closing quote — whitespace and the operator characters `|`, `<`,
`>`, `&` included — is consumed verbatim into the word's span, the
scan continuing after the closing quote (the quote characters are
stripped from the token text by `stripQuotes`); and (b) for any line
tokenizing to no operator tokens *and fewer than 255 tokens* (the
tokenizer's cap, `MAX_TOKENS - 1`), parsing yields exactly one
non-background stage whose argument vector is the whitespace-split,
quote-stripped words of the line in original order. -/
theorem c3_quoting_amended :
    (∀ (mid : List Char) (qc d0 : Char) (rest : List Char),
       isQuoteChar qc = true → (∀ c ∈ mid, c ≠ qc) →
       scanWord (qc :: (mid ++ qc :: rest)) false d0 =
         (qc :: (mid ++ qc :: (scanWord rest false ' ').1),
          (scanWord rest false ' ').2)) ∧
    (∀ l : List Char,
       (tokenize l 256).length < 255 →
       (∀ t ∈ tokenize l 256, t ∉ opTokens) →
       tokenize l 256 = specWords l ∧
       parse_commands (tokenize l 256) =
         .ok [⟨tokenize l 256, none, none, false⟩] false) := by
  constructor
  · intro mid qc d0 rest hq hmid
    have hqws : isWS qc = false := isQuoteChar_not_ws qc hq
    simp [scanWord, hqws, hq, scanWord_in_quote mid qc rest hmid]
  · intro l hlen hmem
    constructor
    · exact tokenizeGo_specWords (l.length + 1) (l.length + 1) l 0 (by omega) (by omega)
        (by omega) (by simpa using hlen) hmem
    · have h := parseGo_words (tokenize l 256) ⟨[], none, none, false⟩ [] false hmem
      simpa using h

/-- Witness for C3 (amended) at a quoted span containing whitespace
and an operator character, and at the line `a "b"`. -/
theorem c3_quoting_amended_witness :
    (isQuoteChar '"' = true ∧ (∀ c ∈ ['b', ' ', '|'], c ≠ '"')) ∧
    scanWord ('"' :: (['b', ' ', '|'] ++ '"' :: [])) false ' ' =
      ('"' :: (['b', ' ', '|'] ++ '"' :: (scanWord [] false ' ').1),
       (scanWord [] false ' ').2) ∧
    ((tokenize ['a', ' ', '"', 'b', '"'] 256).length < 255 ∧
     ∀ t ∈ tokenize ['a', ' ', '"', 'b', '"'] 256, t ∉ opTokens) ∧
    (tokenize ['a', ' ', '"', 'b', '"'] 256 = specWords ['a', ' ', '"', 'b', '"'] ∧
     parse_commands (tokenize ['a', ' ', '"', 'b', '"'] 256) =
       .ok [⟨tokenize ['a', ' ', '"', 'b', '"'] 256, none, none, false⟩] false) := by
  refine ⟨⟨by decide, by decide⟩, ?_, ⟨by decide, by decide⟩, ?_⟩
  · exact c3_quoting_amended.1 ['b', ' ', '|'] '"' ' ' [] (by decide) (by decide)
  · exact c3_quoting_amended.2 ['a', ' ', '"', 'b', '"'] (by decide) (by decide)

/-- C5 as stated fails on the code: with the line copy succeeding but
the second allocation failing, tokenizing `>` stores a null operator
token and returns one token — not the empty result — and tokenizing
`a` crashes writing through the null word buffer; neither aborts with
an empty token sequence. -/
theorem c5_counterexample :
    tokenizeAlloc ['>'] 256 (fun k => !(k == 1)) = .out [none] ∧
    (TokAllocOut.out [none] ≠ .out []) ∧
    tokenizeAlloc ['a'] 256 (fun k => !(k == 1)) = .crash := by decide

/-- C5 amended: the checked allocation failure — the initial line copy,
allocation 0 — aborts tokenization and yields the empty token
sequence; when every allocation succeeds, the instrumented tokenizer
returns exactly the plain token sequence.  (Failures of the per-token
allocations are unchecked: an operator token's copy failure stores a
null entry, a word token's copy failure is undefined behaviour.) -/
theorem c5_alloc_amended :
    (∀ (l : List Char) (maxT : Nat) (a : Nat → Bool), a 0 = false →
       tokenizeAlloc l maxT a = .out []) ∧
    (∀ (l : List Char) (maxT : Nat),
       tokenizeAlloc l maxT (fun _ => true) = .out ((tokenize l maxT).map some)) := by
  constructor
  · intro l maxT a h
    simp [tokenizeAlloc, h]
  · intro l maxT
    simp [tokenizeAlloc, tokenize, tokenizeAllocGo_all_ok]

/-- Witness for C5 (amended) at a concrete line and oracles. -/
theorem c5_alloc_amended_witness :
    ((fun _ : Nat => false) 0 = false) ∧
    tokenizeAlloc ['x'] 256 (fun _ => false) = .out [] ∧
    tokenizeAlloc ['x'] 256 (fun _ => true) = .out ((tokenize ['x'] 256).map some) :=
  ⟨rfl, c5_alloc_amended.1 ['x'] 256 (fun _ => false) rfl, c5_alloc_amended.2 ['x'] 256⟩

end MyShell

